import Mathlib

/-!
Verification of the AI Gateway's request-translation and streaming-proxy
engine, as described by the repository's specification. The repository
itself ships only example client scripts (`example/openai_client.py`,
`example/embeddings_example.py`); the gateway core they exercise (Model
Registry, Dialect Adapters, Batching Coordinator, Streaming Proxy,
Dispatch Core) is not part of the source tree, so each component is
modelled here from the specification's own description and the claims are
settled against those models.
-/

namespace AIGateway

/-! ## Batching Coordinator (spec section 4.3) -/

/-- An embedding vector. The claims only concern vector counts, ordering and
lengths, never float arithmetic, so components are represented as integers. -/
abbrev Vec := List Int

/-- Modelled from the spec: an upstream provider's single embedding call.
It receives one chunk of input texts and either fails with a provider error
message (`UpstreamError`) or returns one vector per input. The provider
implementation is external to the gateway; the Batching Coordinator is
parametric in it. -/
abbrev Provider := List String → Except String (List Vec)

/-- Modelled from the spec: the error surfaced when a chunk sub-call fails.
Spec section 7: "Batch embedding failures report the failing chunk's input
index range" — the failure carries the chunk's starting offset into the
original input list, the chunk's size, and the provider's message. -/
structure ChunkFailure where
  offset : Nat
  size : Nat
  message : String
deriving Repr, DecidableEq

/-- Modelled from the spec (section 4.3): "partition `inputs` into consecutive
chunks of at most `chunk_size` (last chunk may be shorter)", keeping each
chunk's original offset. `fuel` bounds the recursion; `chunkPlan` supplies
`inputs.length`, which suffices for any positive chunk size. -/
def chunksAux {α : Type} (c : Nat) : Nat → Nat → List α → List (Nat × List α)
  | 0, _, _ => []
  | _, _, [] => []
  | fuel + 1, off, x :: xs => (off, (x :: xs).take c) :: chunksAux c fuel (off + c) ((x :: xs).drop c)

/-- Modelled from the spec: the Batching Coordinator's chunking plan for a
batch — the list of (offset, chunk) pairs, offsets counted in the original
input list. One independent embedding sub-call is issued per entry. -/
def chunkPlan {α : Type} (c : Nat) (inputs : List α) : List (Nat × List α) :=
  chunksAux c inputs.length 0 inputs

/-- Modelled from the spec: issue each chunk of the plan as an independent
embedding call; a chunk failure aborts the whole batch and surfaces that
chunk's error with its offset range; on success vectors are reassembled in
offset order (the sequential realisation of splicing at original offsets). -/
def runChunks (p : Provider) : List (Nat × List String) → Except ChunkFailure (List Vec)
  | [] => .ok []
  | (off, ch) :: rest =>
    match p ch with
    | .error m => .error ⟨off, ch.length, m⟩
    | .ok vs =>
      match runChunks p rest with
      | .error e => .error e
      | .ok tail => .ok (vs ++ tail)

/-- Modelled from the spec (section 4.3): `embed_batch(inputs, chunk_size)`,
the Batching Coordinator's contract. -/
def embedBatch (p : Provider) (c : Nat) (inputs : List String) : Except ChunkFailure (List Vec) :=
  runChunks p (chunkPlan c inputs)

/-- Modelled from the spec: the list of sub-calls actually issued upstream,
in issue order: chunks are issued until one fails (a failure aborts the
batch, so later chunks are never sent). -/
def callsIssued (p : Provider) : List (Nat × List String) → List (List String)
  | [] => []
  | (_, ch) :: rest =>
    ch :: (match p ch with
      | .error _ => []
      | .ok _ => callsIssued p rest)

/-! ### Completion-order independent assembly

The spec allows chunk sub-calls to run concurrently: "Chunk calls may run
concurrently up to a bounded concurrency limit; regardless of completion
order, output ordering must equal input ordering." A completed chunk is a
write of its vectors at its original offset; `assemble` replays the writes
in an arbitrary completion order. -/

/-- A completed chunk sub-call: the chunk's original offset and its vectors. -/
abbrev Write := Nat × List Vec

/-- Modelled from the spec: "on chunk success, splice its vectors back into
the output at the original offset". The partially assembled output is a map
from input index to the vector already spliced there, if any. -/
def applyWrite (m : Nat → Option Vec) (w : Write) : Nat → Option Vec :=
  fun i => if w.1 ≤ i ∧ i < w.1 + w.2.length then w.2[i - w.1]? else m i

/-- Modelled from the spec: replay the completed chunk sub-calls in the given
completion order, splicing each at its original offset. -/
def assemble (ws : List Write) : Nat → Option Vec :=
  ws.foldl applyWrite (fun _ => none)

/-- Modelled from the spec: the writes produced by a batch whose upstream
embedder is the per-input function `f` — one write per chunk of the plan. -/
def chunkWrites (f : String → Vec) (c : Nat) (inputs : List String) : List Write :=
  (chunkPlan c inputs).map (fun w => (w.1, w.2.map f))

/-- Two writes whose index ranges do not overlap. -/
def WriteDisjoint (a b : Write) : Prop :=
  a.1 + a.2.length ≤ b.1 ∨ b.1 + b.2.length ≤ a.1

/-! ## Streaming Proxy (spec section 4.4) -/

/-- Modelled from the spec: how one upstream streaming call ends, as observed
by the proxy: the upstream either sends its own terminal marker, ends the
stream without one, or the connection drops mid-stream. -/
inductive UpstreamEnding where
  | completed
  | omitted
  | interrupted
deriving Repr, DecidableEq

/-- Modelled from the spec: one upstream streaming call: the provider-native
chunks in arrival order, then how the stream ended. -/
structure UpstreamStream where
  chunks : List String
  ending : UpstreamEnding
deriving Repr, DecidableEq

/-- Modelled from the spec: a client-facing SSE frame: a translated upstream
chunk, an in-band error event, or the terminal `[DONE]` frame. -/
inductive Frame where
  | event (payload : String)
  | errorEvent (kind : String)
  | done
deriving Repr, DecidableEq

/-- Modelled from the spec: the frames the proxy emits in the `Closed`
transition. Exactly one terminal `[DONE]` frame, synthesized even if upstream
never sent its own terminator; a mid-stream drop is surfaced first as an
in-band `UpstreamInterrupted` marker event. -/
def closingFrames : UpstreamEnding → List Frame
  | .completed => [.done]
  | .omitted => [.done]
  | .interrupted => [.errorEvent "UpstreamInterrupted", .done]

/-- Modelled from the spec: the full client-facing frame sequence of one
streaming call (`Opened → Emitting(n) → Closed`): each upstream chunk is
translated and forwarded as one event in the exact order received — no
reordering buffer — then the `Closed` transition's frames are emitted. -/
def proxyFrames (u : UpstreamStream) : List Frame :=
  u.chunks.map Frame.event ++ closingFrames u.ending

/-- The concatenation of the incremental text carried by the event frames of a
client-facing frame sequence. -/
def framesText : List Frame → String
  | [] => ""
  | .event s :: rest => s ++ framesText rest
  | .errorEvent _ :: rest => framesText rest
  | .done :: rest => framesText rest

/-- Concatenation of a list of text chunks. -/
def concatTexts : List String → String
  | [] => ""
  | s :: rest => s ++ concatTexts rest

/-- Modelled from the spec: the text of the non-streamed (stream=false)
response to the same request: the Dispatch Core awaits the full
CanonicalResponse, whose output text is the whole upstream generation — the
concatenation of the upstream deltas. -/
def syncText (chunks : List String) : String := concatTexts chunks

/-! ## Model Registry and Dispatch Core (spec sections 4.1, 4.5) -/

/-- Modelled from the spec: the supported API dialects. -/
inductive Dialect where
  | chatCompletions
  | responses
  | embeddings
deriving Repr, DecidableEq

/-- Modelled from the spec: a registered route: model name, upstream provider
and its dialect, endpoint. Immutable once loaded; looked up by exact name. -/
structure ModelRoute where
  model_name : String
  provider_id : String
  provider_dialect : Dialect
  endpoint_url : String
deriving Repr, DecidableEq

/-- Modelled from the spec: the gateway's error taxonomy (section 7). -/
inductive GwError where
  | badRequest (msg : String)
  | notFound (model : String)
  | upstreamError (msg : String)
  | upstreamInterrupted
  | timeout
  | internalError (msg : String)
deriving Repr, DecidableEq

/-- Modelled from the spec: the Model Registry's
`resolve(model_name) -> ModelRoute`; fails with `NotFound` if no route is
registered under the exact requested name. -/
def resolve (registry : List (String × ModelRoute)) (model : String) :
    Except GwError ModelRoute :=
  match registry.lookup model with
  | some r => .ok r
  | none => .error (.notFound model)

/-- An observable upstream side effect, recorded so that "no upstream call is
issued" is a statement about the model rather than about missing code. -/
inductive Effect where
  | upstreamCall (provider_id : String)
deriving Repr, DecidableEq

/-- Modelled from the spec: the canonical, dialect-neutral response. -/
structure CanonicalResponse where
  id : String
  model : String
  output : List String
deriving Repr, DecidableEq

/-- Modelled from the spec: the Dispatch Core's synchronous path: resolve the
model via the Registry first; only on success is the upstream call issued.
The effect trace records every upstream call made. -/
def dispatch (registry : List (String × ModelRoute)) (model : String)
    (upstream : ModelRoute → Except GwError CanonicalResponse) :
    Except GwError CanonicalResponse × List Effect :=
  match resolve registry model with
  | .error e => (.error e, [])
  | .ok route => (upstream route, [.upstreamCall route.provider_id])

/-! ## Wire payloads and Dialect Adapters (spec section 4.2) -/

/-- A JSON-like wire value, the shape of client payloads and responses. -/
inductive Wire where
  | str (s : String)
  | num (n : Int)
  | boolean (b : Bool)
  | arr (items : List Wire)
  | obj (fields : List (String × Wire))
deriving Repr

/-- Field access on a wire object; `none` on non-objects or missing keys. -/
def Wire.getField : Wire → String → Option Wire
  | .obj fields, k => fields.lookup k
  | _, _ => none

/-- Index access on a wire array; `none` on non-arrays or out of range. -/
def Wire.getIdx : Wire → Nat → Option Wire
  | .arr items, i => items[i]?
  | _, _ => none

/-- Modelled from the spec: one role/content pair of a chat request. -/
structure ChatMessage where
  role : String
  content : String
deriving Repr, DecidableEq

/-- Modelled from the spec: the canonical, dialect-neutral request built by
an adapter's decode. -/
structure CanonicalRequest where
  model : String
  messages : List ChatMessage
  stream : Bool
deriving Repr, DecidableEq

/-- Modelled from the spec: decoding one entry of the `messages` array; fails
with `BadRequest` when `role` or `content` is missing or not a string. -/
def decodeMessage (w : Wire) : Except GwError ChatMessage :=
  match w.getField "role", w.getField "content" with
  | some (.str r), some (.str c) => .ok ⟨r, c⟩
  | _, _ => .error (.badRequest "malformed message")

/-- Decode every entry of a `messages` array, failing on the first bad one. -/
def decodeMessages : List Wire → Except GwError (List ChatMessage)
  | [] => .ok []
  | w :: rest =>
    match decodeMessage w, decodeMessages rest with
    | .ok m, .ok ms => .ok (m :: ms)
    | .error e, _ => .error e
    | _, .error e => .error e

/-- Modelled from the spec: the Chat-Completions adapter's
`decode(wire_payload) -> CanonicalRequest`: requires a string `model` field
and a well-formed `messages` array; fails with `BadRequest` on schema
mismatch. -/
def decodeChat (w : Wire) : Except GwError CanonicalRequest :=
  match w.getField "model" with
  | some (.str m) =>
    match w.getField "messages" with
    | some (.arr ms) =>
      match decodeMessages ms with
      | .ok msgs =>
        .ok { model := m, messages := msgs,
              stream := match w.getField "stream" with
                | some (.boolean b) => b
                | _ => false }
      | .error e => .error e
    | _ => .error (.badRequest "missing or malformed messages")
  | _ => .error (.badRequest "missing model")

/-- Modelled from the spec: the Chat-Completions adapter's
`encode(CanonicalResponse) -> wire_payload`: reproduces the OpenAI
Chat-Completions shape, nesting the response text exactly under
`choices[0].message.content`. -/
def encodeChat (r : CanonicalResponse) : Wire :=
  .obj [("id", .str r.id),
        ("object", .str "chat.completion"),
        ("model", .str r.model),
        ("choices", .arr [.obj
          [("index", .num 0),
           ("message", .obj [("role", .str "assistant"),
                             ("content", .str (concatTexts r.output))]),
           ("finish_reason", .str "stop")]])]

/-- Modelled from the spec: the CanonicalResponse corresponding to a decoded
request: it answers under the request's model, with the upstream-assigned id
and the generated content blocks. -/
def respondTo (req : CanonicalRequest) (id : String) (output : List String) :
    CanonicalResponse :=
  { id := id, model := req.model, output := output }

/-- The wire location Chat-Completions consumers read the text from:
`choices[0].message.content`. -/
def chatContentPath (w : Wire) : Option Wire :=
  (((w.getField "choices").bind (fun c => c.getIdx 0)).bind
    (fun c => c.getField "message")).bind (fun m => m.getField "content")

/-! ## Embeddings dialect and pipeline (spec sections 4.2, 4.3, 6) -/

/-- Modelled from the spec: decoding the elements of an `input` array — every
element must be a string. -/
def decodeStringList : List Wire → Except GwError (List String)
  | [] => .ok []
  | .str s :: rest =>
    match decodeStringList rest with
    | .ok ss => .ok (s :: ss)
    | .error e => .error e
  | _ :: _ => .error (.badRequest "input array must contain strings")

/-- Modelled from the spec: the embeddings `input` field accepts a single
string — treated as a one-element batch — or an array of strings. -/
def decodeEmbedInput : Wire → Except GwError (List String)
  | .str s => .ok [s]
  | .arr items => decodeStringList items
  | _ => .error (.badRequest "malformed input")

/-- Modelled from the spec: the embeddings response `data` array: one entry
per returned vector, carrying its index — entry i is `{embedding, index: i}`,
represented as the (index, embedding) pair. -/
def embedData (out : List Vec) : List (Nat × Vec) := out.enum

/-- Modelled from the spec: the embeddings endpoint applied to a wire `input`
value: decode the input, run the Batching Coordinator, and render the data
array. Batching is transparent to the caller. -/
def handleEmbedWire (P : Provider) (c : Nat) (inputWire : Wire) :
    Except GwError (List (Nat × Vec)) :=
  match decodeEmbedInput inputWire with
  | .error e => .error e
  | .ok inputs =>
    match embedBatch P c inputs with
    | .error f => .error (.upstreamError f.message)
    | .ok out => .ok (embedData out)

/-- Modelled from the spec and `example_query_vs_text`: the LlamaIndex
client's two embedding modes; both send the single text as a plain string
`input`, so the gateway sees the same request shape in either mode. -/
inductive ClientMode where
  | query
  | text
deriving Repr, DecidableEq

/-- The wire `input` value a client call produces for one text, in either
mode. -/
def modeInput : ClientMode → String → Wire
  | _, t => .str t

/-- Modelled from the spec: a canonical embeddings request; `dimensions` is
the optional requested output dimension of `/v1/embeddings`. -/
structure EmbedRequest where
  model : String
  input : List String
  dimensions : Option Nat
deriving Repr, DecidableEq

/-- Modelled from the spec: the embeddings path of the Dispatch Core: the
request's `dimensions` option is forwarded unchanged to every upstream chunk
sub-call issued by the Batching Coordinator. -/
def handleEmbeddings (P : Option Nat → Provider) (c : Nat) (req : EmbedRequest) :
    Except ChunkFailure (List Vec) :=
  embedBatch (P req.dimensions) c req.input

theorem chunksAux_nil {α : Type} (c fuel off : Nat) : chunksAux (α := α) c fuel off [] = [] := by
  cases fuel <;> rfl

theorem chunksAux_flatten {α : Type} (c : Nat) (hc : 0 < c) :
    ∀ (fuel off : Nat) (xs : List α), xs.length ≤ fuel →
      ((chunksAux c fuel off xs).map Prod.snd).flatten = xs := by
  intro fuel
  induction fuel with
  | zero =>
    intro off xs hxs
    have : xs = [] := List.length_eq_zero.mp (Nat.le_zero.mp hxs)
    subst this; rfl
  | succ n ih =>
    intro off xs hxs
    cases xs with
    | nil => rfl
    | cons x l =>
      have hlen : ((x :: l).drop c).length ≤ n := by
        simp only [List.length_drop, List.length_cons]
        simp only [List.length_cons] at hxs
        omega
      simp only [chunksAux, List.map_cons, List.flatten_cons, ih (off + c) _ hlen]
      exact List.take_append_drop c (x :: l)

theorem chunksAux_mem_char {α : Type} (c : Nat) :
    ∀ (fuel off : Nat) (xs : List α) (w : Nat × List α), w ∈ chunksAux c fuel off xs →
      off ≤ w.1 ∧ w.2 = (xs.drop (w.1 - off)).take c ∧ w.1 + w.2.length ≤ off + xs.length := by
  intro fuel
  induction fuel with
  | zero => intro off xs w hw; simp [chunksAux] at hw
  | succ n ih =>
    intro off xs w hw
    cases xs with
    | nil => simp [chunksAux] at hw
    | cons x l =>
      simp only [chunksAux, List.mem_cons] at hw
      rcases hw with hw | hw
      · subst hw
        refine ⟨Nat.le_refl _, by simp, ?_⟩
        simp only [List.length_take, List.length_cons]
        omega
      · by_cases hcl : (x :: l).drop c = []
        · rw [hcl, chunksAux_nil] at hw
          simp at hw
        · have hc_le : c ≤ (x :: l).length := by
            by_contra hlt
            exact hcl (List.drop_eq_nil_of_le (Nat.le_of_not_le hlt))
          obtain ⟨h1, h2, h3⟩ := ih (off + c) ((x :: l).drop c) w hw
          refine ⟨by omega, ?_, ?_⟩
          · have harith : c + (w.1 - (off + c)) = w.1 - off := by omega
            rw [h2, List.drop_drop, harith]
          · simp only [List.length_drop, List.length_cons] at h3 hc_le
            simp only [List.length_cons]
            omega

theorem chunksAux_sizes_le {α : Type} (c : Nat) (fuel off : Nat) (xs : List α)
    (w : Nat × List α) (hw : w ∈ chunksAux c fuel off xs) : w.2.length ≤ c := by
  obtain ⟨-, h2, -⟩ := chunksAux_mem_char c fuel off xs w hw
  rw [h2]
  simp [List.length_take]

theorem chunksAux_pairwise {α : Type} (c : Nat) :
    ∀ (fuel off : Nat) (xs : List α),
      (chunksAux c fuel off xs).Pairwise (fun a b => a.1 + a.2.length ≤ b.1) := by
  intro fuel
  induction fuel with
  | zero => intro off xs; simp [chunksAux]
  | succ n ih =>
    intro off xs
    cases xs with
    | nil => simp [chunksAux]
    | cons x l =>
      simp only [chunksAux]
      refine List.Pairwise.cons ?_ (ih (off + c) _)
      intro w hw
      obtain ⟨h1, -, -⟩ := chunksAux_mem_char c n (off + c) _ w hw
      simp only [List.length_take, List.length_cons]
      omega

theorem chunksAux_cover {α : Type} (c : Nat) (hc : 0 < c) :
    ∀ (fuel off : Nat) (xs : List α) (i : Nat), xs.length ≤ fuel → i < xs.length →
      ∃ w ∈ chunksAux c fuel off xs, w.1 ≤ off + i ∧ off + i < w.1 + w.2.length := by
  intro fuel
  induction fuel with
  | zero => intro off xs i hf hi; omega
  | succ n ih =>
    intro off xs i hf hi
    cases xs with
    | nil => simp at hi
    | cons x l =>
      by_cases hic : i < c
      · refine ⟨(off, (x :: l).take c), List.mem_cons_self _ _, Nat.le_add_right _ _, ?_⟩
        simp only [List.length_cons] at hi
        simp only [List.length_take, List.length_cons]
        omega
      · have hc_le : c ≤ i := Nat.le_of_not_lt hic
        have hlen : ((x :: l).drop c).length ≤ n := by
          simp only [List.length_drop, List.length_cons]
          simp only [List.length_cons] at hf
          omega
        have hi' : i - c < ((x :: l).drop c).length := by
          simp only [List.length_drop]
          omega
        obtain ⟨w, hw, hw1, hw2⟩ := ih (off + c) ((x :: l).drop c) (i - c) hlen hi'
        refine ⟨w, List.mem_cons_of_mem _ hw, by omega, by omega⟩

theorem chunkPlan_flatten {α : Type} (c : Nat) (hc : 0 < c) (inputs : List α) :
    ((chunkPlan c inputs).map Prod.snd).flatten = inputs :=
  chunksAux_flatten c hc inputs.length 0 inputs (Nat.le_refl _)

theorem chunkPlan_mem_char {α : Type} (c : Nat) (inputs : List α) (w : Nat × List α)
    (hw : w ∈ chunkPlan c inputs) :
    w.2 = (inputs.drop w.1).take c ∧ w.1 + w.2.length ≤ inputs.length := by
  obtain ⟨h1, h2, h3⟩ := chunksAux_mem_char c inputs.length 0 inputs w hw
  exact ⟨by simpa using h2, by omega⟩

theorem applyWrite_comm (m : Nat → Option Vec) (a b : Write) (hab : WriteDisjoint a b) :
    applyWrite (applyWrite m a) b = applyWrite (applyWrite m b) a := by
  funext i
  simp only [applyWrite]
  rcases hab with h | h <;>
  · by_cases ha : a.1 ≤ i ∧ i < a.1 + a.2.length <;>
      by_cases hb : b.1 ≤ i ∧ i < b.1 + b.2.length <;>
      simp [ha, hb] <;> omega

theorem foldl_applyWrite_notCovered (ws : List Write) (i : Nat)
    (h : ∀ w ∈ ws, ¬(w.1 ≤ i ∧ i < w.1 + w.2.length)) :
    ∀ m, (ws.foldl applyWrite m) i = m i := by
  induction ws with
  | nil => intro m; rfl
  | cons a t ih =>
    intro m
    simp only [List.foldl_cons]
    rw [ih (fun w hw => h w (List.mem_cons_of_mem a hw))]
    simp only [applyWrite]
    rw [if_neg (h a (List.mem_cons_self a t))]

theorem foldl_applyWrite_covered (ws : List Write)
    (hpw : ws.Pairwise (fun a b => a.1 + a.2.length ≤ b.1))
    (w : Write) (hw : w ∈ ws) (i : Nat) (h1 : w.1 ≤ i) (h2 : i < w.1 + w.2.length) :
    ∀ m, (ws.foldl applyWrite m) i = w.2[i - w.1]? := by
  induction ws with
  | nil => simp at hw
  | cons a t ih =>
    intro m
    simp only [List.foldl_cons]
    rcases List.mem_cons.mp hw with hwa | hwt
    · subst hwa
      have hnone : ∀ v ∈ t, ¬(v.1 ≤ i ∧ i < v.1 + v.2.length) := by
        intro v hv hvcov
        have := (List.pairwise_cons.mp hpw).1 v hv
        omega
      rw [foldl_applyWrite_notCovered t i hnone]
      simp only [applyWrite]
      rw [if_pos ⟨h1, h2⟩]
    · have hat : a.1 + a.2.length ≤ w.1 := (List.pairwise_cons.mp hpw).1 w hwt
      exact ih (List.pairwise_cons.mp hpw).2 hwt _

theorem chunkWrites_pairwise (f : String → Vec) (c : Nat) (inputs : List String) :
    (chunkWrites f c inputs).Pairwise (fun a b => a.1 + a.2.length ≤ b.1) := by
  refine List.Pairwise.map _ ?_ (chunksAux_pairwise c inputs.length 0 inputs)
  intro a b hab
  simpa using hab

theorem assemble_chunkWrites (f : String → Vec) (c : Nat) (hc : 0 < c)
    (inputs : List String) (i : Nat) :
    assemble (chunkWrites f c inputs) i = (inputs.map f)[i]? := by
  by_cases hi : i < inputs.length
  · obtain ⟨w, hw, hw1, hw2⟩ :=
      chunksAux_cover c hc inputs.length 0 inputs i (Nat.le_refl _) hi
    have hmem : (w.1, w.2.map f) ∈ chunkWrites f c inputs :=
      List.mem_map_of_mem (fun v => (v.1, v.2.map f)) hw
    have hcov1 : (w.1, w.2.map f).1 ≤ i := by simpa using hw1
    have hcov2 : i < (w.1, w.2.map f).1 + (w.1, w.2.map f).2.length := by
      simpa using hw2
    rw [assemble, foldl_applyWrite_covered (chunkWrites f c inputs)
      (chunkWrites_pairwise f c inputs) _ hmem i hcov1 hcov2]
    obtain ⟨hch, hbound⟩ := chunkPlan_mem_char c inputs w hw
    simp only [List.getElem?_map]
    rw [hch, List.getElem?_take_of_lt, List.getElem?_drop]
    · have harith : w.1 + (i - w.1) = i := by
        simp only [Nat.zero_add] at hw1
        omega
      rw [harith]
    · have hsize := chunksAux_sizes_le c inputs.length 0 inputs w hw
      simp only [Nat.zero_add] at hw1 hw2
      omega
  · rw [assemble, foldl_applyWrite_notCovered]
    · rw [List.getElem?_eq_none]
      simpa using Nat.le_of_not_lt hi
    · intro w hw hcov
      obtain ⟨v, hv, hveq⟩ := List.mem_map.mp hw
      obtain ⟨-, hbound⟩ := chunkPlan_mem_char c inputs v hv
      rw [← hveq] at hcov
      simp only [List.length_map] at hcov
      omega

theorem assemble_perm (ws : List Write) (f : String → Vec) (c : Nat)
    (hperm : ws.Perm (chunkWrites f c inputs)) :
    assemble ws = assemble (chunkWrites f c inputs) := by
  have hpw := chunkWrites_pairwise f c inputs
  have hdisj : ∀ x ∈ ws, ∀ y ∈ ws, x ≠ y → WriteDisjoint x y := by
    have hsym : Symmetric WriteDisjoint := by
      intro a b h
      rcases h with h | h
      · exact Or.inr h
      · exact Or.inl h
    have := List.Pairwise.forall hsym
      (hpw.imp (fun {a b} h => Or.inl h : ∀ {a b : Write}, _ → WriteDisjoint a b))
    intro x hx y hy hxy
    exact this (hperm.mem_iff.mp hx) (hperm.mem_iff.mp hy) hxy
  unfold assemble
  refine hperm.foldl_eq' ?_ _
  intro x hx y hy z
  by_cases hxy : x = y
  · rw [hxy]
  · exact (applyWrite_comm z x y (hdisj x hx y hy hxy)).symm ▸ rfl

/-! ### Behaviour of `runChunks` -/

theorem runChunks_pure (f : String → Vec) :
    ∀ ws : List (Nat × List String),
      runChunks (fun xs => .ok (xs.map f)) ws =
        .ok ((ws.map (fun w => w.2.map f)).flatten) := by
  intro ws
  induction ws with
  | nil => rfl
  | cons a t ih =>
    obtain ⟨off, ch⟩ := a
    simp [runChunks, ih]

theorem runChunks_error_iff (p : Provider) :
    ∀ ws, (∃ e, runChunks p ws = .error e) ↔ ∃ w ∈ ws, ∃ m, p w.2 = .error m := by
  intro ws
  induction ws with
  | nil => simp [runChunks]
  | cons a t ih =>
    obtain ⟨off, ch⟩ := a
    constructor
    · rintro ⟨e, he⟩
      simp only [runChunks] at he
      cases hp : p ch with
      | error m => exact ⟨(off, ch), List.mem_cons_self _ _, m, hp⟩
      | ok vs =>
        rw [hp] at he
        cases hr : runChunks p t with
        | error e2 =>
          obtain ⟨w, hw, m, hm⟩ := ih.mp ⟨e2, hr⟩
          exact ⟨w, List.mem_cons_of_mem _ hw, m, hm⟩
        | ok tail =>
          rw [hr] at he
          simp at he
    · rintro ⟨w, hw, m, hm⟩
      rcases List.mem_cons.mp hw with hwa | hwt
      · subst hwa
        exact ⟨⟨off, ch.length, m⟩, by simp [runChunks, hm]⟩
      · obtain ⟨e, he⟩ := ih.mpr ⟨w, hwt, m, hm⟩
        cases hp : p ch with
        | error m2 => exact ⟨⟨off, ch.length, m2⟩, by simp [runChunks, hp]⟩
        | ok vs => exact ⟨e, by simp [runChunks, hp, he]⟩

theorem runChunks_error_spec (p : Provider) :
    ∀ ws e, runChunks p ws = .error e →
      ∃ w ∈ ws, e.offset = w.1 ∧ e.size = w.2.length ∧ p w.2 = .error e.message := by
  intro ws
  induction ws with
  | nil => intro e he; simp [runChunks] at he
  | cons a t ih =>
    intro e he
    obtain ⟨off, ch⟩ := a
    simp only [runChunks] at he
    cases hp : p ch with
    | error m =>
      rw [hp] at he
      simp only [Except.error.injEq] at he
      subst he
      exact ⟨(off, ch), List.mem_cons_self _ _, rfl, rfl, hp⟩
    | ok vs =>
      rw [hp] at he
      cases hr : runChunks p t with
      | error e2 =>
        rw [hr] at he
        simp only [Except.error.injEq] at he
        subst he
        obtain ⟨w, hw, h1, h2, h3⟩ := ih e2 hr
        exact ⟨w, List.mem_cons_of_mem _ hw, h1, h2, h3⟩
      | ok tail =>
        rw [hr] at he
        simp at he

theorem runChunks_ok_length (p : Provider)
    (hlen : ∀ xs vs, p xs = .ok vs → vs.length = xs.length) :
    ∀ ws out, runChunks p ws = .ok out →
      out.length = ((ws.map Prod.snd).flatten).length := by
  intro ws
  induction ws with
  | nil =>
    intro out hout
    simp only [runChunks, Except.ok.injEq] at hout
    subst hout
    rfl
  | cons a t ih =>
    intro out hout
    obtain ⟨off, ch⟩ := a
    simp only [runChunks] at hout
    cases hp : p ch with
    | error m => rw [hp] at hout; simp at hout
    | ok vs =>
      rw [hp] at hout
      cases hr : runChunks p t with
      | error e => rw [hr] at hout; simp at hout
      | ok tail =>
        rw [hr] at hout
        simp only [Except.ok.injEq] at hout
        subst hout
        simp only [List.map_cons, List.flatten_cons, List.length_append]
        rw [hlen ch vs hp, ih tail hr]

theorem runChunks_ok_mem (p : Provider) :
    ∀ ws out, runChunks p ws = .ok out →
      ∀ v ∈ out, ∃ ch vs, p ch = .ok vs ∧ v ∈ vs := by
  intro ws
  induction ws with
  | nil =>
    intro out hout v hv
    simp only [runChunks, Except.ok.injEq] at hout
    subst hout
    simp at hv
  | cons a t ih =>
    intro out hout v hv
    obtain ⟨off, ch⟩ := a
    simp only [runChunks] at hout
    cases hp : p ch with
    | error m => rw [hp] at hout; simp at hout
    | ok vs =>
      rw [hp] at hout
      cases hr : runChunks p t with
      | error e => rw [hr] at hout; simp at hout
      | ok tail =>
        rw [hr] at hout
        simp only [Except.ok.injEq] at hout
        subst hout
        rcases List.mem_append.mp hv with hvv | hvt
        · exact ⟨ch, vs, hp, hvv⟩
        · exact ih tail hr v hvt

theorem callsIssued_ok (p : Provider) :
    ∀ ws, (∀ w ∈ ws, ∃ vs, p w.2 = .ok vs) → callsIssued p ws = ws.map Prod.snd := by
  intro ws
  induction ws with
  | nil => intro _; rfl
  | cons a t ih =>
    intro h
    obtain ⟨off, ch⟩ := a
    obtain ⟨vs, hp⟩ := h (off, ch) (List.mem_cons_self _ _)
    simp only [callsIssued, hp, List.map_cons]
    rw [ih (fun w hw => h w (List.mem_cons_of_mem _ hw))]

theorem framesText_events (l : List String) :
    ∀ rest, framesText (l.map Frame.event ++ rest) = concatTexts l ++ framesText rest := by
  induction l with
  | nil => intro rest; simp [concatTexts]
  | cons s t ih =>
    intro rest
    show s ++ framesText (t.map Frame.event ++ rest) = (s ++ concatTexts t) ++ framesText rest
    rw [ih rest, String.append_assoc]

theorem done_not_mem_events (l : List String) : Frame.done ∉ l.map Frame.event := by
  intro h
  obtain ⟨s, -, hs⟩ := List.mem_map.mp h
  exact Frame.noConfusion hs

/-! ### Further batching helper lemmas -/

theorem chunksAux_dropLast_sizes {α : Type} (c : Nat) :
    ∀ (fuel off : Nat) (xs : List α),
      ∀ w ∈ (chunksAux c fuel off xs).dropLast, w.2.length = c := by
  intro fuel
  induction fuel with
  | zero => intro off xs w hw; simp [chunksAux] at hw
  | succ n ih =>
    intro off xs w hw
    cases xs with
    | nil => simp [chunksAux] at hw
    | cons x l =>
      simp only [chunksAux] at hw
      cases hrest : chunksAux c n (off + c) ((x :: l).drop c) with
      | nil => rw [hrest] at hw; simp at hw
      | cons r rt =>
        rw [hrest, List.dropLast_cons₂] at hw
        rcases List.mem_cons.mp hw with hwa | hwt
        · subst hwa
          have hne : (x :: l).drop c ≠ [] := by
            intro hnil
            rw [hnil, chunksAux_nil] at hrest
            exact List.noConfusion hrest
          have hlt : c < (x :: l).length := by
            by_contra hle
            exact hne (List.drop_eq_nil_of_le (Nat.le_of_not_lt hle))
          simp only [List.length_take, List.length_cons]
          simp only [List.length_cons] at hlt
          omega
        · exact ih (off + c) ((x :: l).drop c) w (by rw [hrest]; exact hwt)

theorem chunkPlan_single {α : Type} (c : Nat) (inputs : List α) (hne : inputs ≠ [])
    (hle : inputs.length ≤ c) : chunkPlan c inputs = [(0, inputs)] := by
  cases inputs with
  | nil => exact absurd rfl hne
  | cons x l =>
    show chunksAux c (l.length + 1) 0 (x :: l) = [(0, x :: l)]
    simp only [chunksAux]
    rw [List.take_of_length_le (by simpa using hle),
      List.drop_eq_nil_of_le (by simpa using hle), chunksAux_nil]

theorem embedBatch_pure (f : String → Vec) (c : Nat) (hc : 0 < c) (inputs : List String) :
    embedBatch (fun xs => .ok (xs.map f)) c inputs = .ok (inputs.map f) := by
  rw [embedBatch, runChunks_pure]
  have hmm : (chunkPlan c inputs).map (fun w => w.2.map f)
      = ((chunkPlan c inputs).map Prod.snd).map (List.map f) := by
    rw [List.map_map]
    rfl
  rw [hmm, ← List.map_flatten, chunkPlan_flatten c hc]

theorem embedBatch_ok_length (p : Provider)
    (hlen : ∀ xs vs, p xs = .ok vs → vs.length = xs.length)
    (c : Nat) (hc : 0 < c) (inputs : List String) (out : List Vec)
    (h : embedBatch p c inputs = .ok out) : out.length = inputs.length := by
  have h1 := runChunks_ok_length p hlen (chunkPlan c inputs) out h
  rw [chunkPlan_flatten c hc inputs] at h1
  exact h1

theorem decodeStringList_strs (ts : List String) :
    decodeStringList (ts.map Wire.str) = .ok ts := by
  induction ts with
  | nil => rfl
  | cons s t ih => simp [decodeStringList, ih]

/-! ## Claim theorems -/

/-- C1: For every embedding input list and every positive chunk_size,
`embed_batch` with a per-input upstream embedder f succeeds with exactly one
vector per input, the vector at position i being f applied to inputs[i]; and
for every completion order of the chunk sub-calls (any permutation of the
chunk writes), the assembled output at index i is still f of inputs[i]. -/
theorem embed_batch_preserves_order (f : String → Vec) (c : Nat) (hc : 0 < c)
    (inputs : List String) :
    embedBatch (fun xs => .ok (xs.map f)) c inputs = .ok (inputs.map f) ∧
    (inputs.map f).length = inputs.length ∧
    ∀ ws : List Write, ws.Perm (chunkWrites f c inputs) →
      ∀ i : Nat, assemble ws i = (inputs.map f)[i]? := by
  refine ⟨embedBatch_pure f c hc inputs, List.length_map _ _, ?_⟩
  intro ws hperm i
  rw [assemble_perm ws f c hperm, assemble_chunkWrites f c hc]

/-- Witness for C1: three inputs embedded in chunks of two. -/
theorem embed_batch_preserves_order_witness :
    0 < 2 ∧
    (embedBatch (fun xs => .ok (xs.map (fun s => [(s.length : Int)]))) 2 ["a", "bb", "ccc"]
        = .ok (["a", "bb", "ccc"].map (fun s => [(s.length : Int)])) ∧
      (["a", "bb", "ccc"].map (fun s => [(s.length : Int)])).length =
        (["a", "bb", "ccc"] : List String).length ∧
      ∀ ws : List Write,
        ws.Perm (chunkWrites (fun s => [(s.length : Int)]) 2 ["a", "bb", "ccc"]) →
        ∀ i : Nat,
          assemble ws i = (["a", "bb", "ccc"].map (fun s => [(s.length : Int)]))[i]?) :=
  ⟨by decide, embed_batch_preserves_order (fun s => [(s.length : Int)]) 2 (by decide)
    ["a", "bb", "ccc"]⟩

/-- C3: For every inputs list and positive chunk_size, the Batching
Coordinator partitions inputs into consecutive chunks each of size at most
chunk_size, with every chunk but the last of size exactly chunk_size, each
chunk being the slice of the inputs at its offset; one independent sub-call
is issued per chunk and each chunk's vectors are spliced back in input order;
chunk_size ≥ len(inputs) degenerates to a single sub-call; and 25 inputs with
chunk_size 10 yield exactly 3 sub-calls of sizes 10, 10, 5 and 25 output
vectors. -/
theorem chunking_plan_correct (c : Nat) (hc : 0 < c) (inputs : List String)
    (f : String → Vec) :
    ((chunkPlan c inputs).map Prod.snd).flatten = inputs ∧
    (∀ w ∈ chunkPlan c inputs, w.2.length ≤ c ∧ w.2 = (inputs.drop w.1).take c) ∧
    (∀ w ∈ (chunkPlan c inputs).dropLast, w.2.length = c) ∧
    callsIssued (fun xs => .ok (xs.map f)) (chunkPlan c inputs)
      = (chunkPlan c inputs).map Prod.snd ∧
    embedBatch (fun xs => .ok (xs.map f)) c inputs = .ok (inputs.map f) ∧
    (inputs ≠ [] → inputs.length ≤ c → chunkPlan c inputs = [(0, inputs)]) ∧
    (chunkPlan 10 (List.replicate 25 "t")).map (fun w => w.2.length) = [10, 10, 5] ∧
    embedBatch (fun xs => .ok (xs.map (fun _ => ([] : Vec)))) 10 (List.replicate 25 "t")
      = .ok (List.replicate 25 ([] : Vec)) := by
  refine ⟨chunkPlan_flatten c hc inputs, ?_, chunksAux_dropLast_sizes c _ _ _,
    callsIssued_ok _ _ (fun w hw => ⟨w.2.map f, rfl⟩), embedBatch_pure f c hc inputs,
    fun h1 h2 => chunkPlan_single c inputs h1 h2, by decide, by rfl⟩
  intro w hw
  obtain ⟨h2, -⟩ := chunkPlan_mem_char c inputs w hw
  exact ⟨chunksAux_sizes_le c _ _ _ w hw, h2⟩

/-- Witness for C3 at chunk_size 3 over five inputs. -/
theorem chunking_plan_correct_witness :
    0 < 3 ∧
    (((chunkPlan 3 ["a", "b", "c", "d", "e"]).map Prod.snd).flatten
        = ["a", "b", "c", "d", "e"] ∧
      (∀ w ∈ chunkPlan 3 ["a", "b", "c", "d", "e"],
        w.2.length ≤ 3 ∧ w.2 = ((["a", "b", "c", "d", "e"] : List String).drop w.1).take 3) ∧
      (∀ w ∈ (chunkPlan 3 ["a", "b", "c", "d", "e"]).dropLast, w.2.length = 3) ∧
      callsIssued (fun xs => .ok (xs.map (fun _ => ([] : Vec))))
          (chunkPlan 3 ["a", "b", "c", "d", "e"])
        = (chunkPlan 3 ["a", "b", "c", "d", "e"]).map Prod.snd ∧
      embedBatch (fun xs => .ok (xs.map (fun _ => ([] : Vec)))) 3 ["a", "b", "c", "d", "e"]
        = .ok (["a", "b", "c", "d", "e"].map (fun _ => ([] : Vec))) ∧
      ((["a", "b", "c", "d", "e"] : List String) ≠ [] →
        (["a", "b", "c", "d", "e"] : List String).length ≤ 3 →
        chunkPlan 3 ["a", "b", "c", "d", "e"] = [(0, ["a", "b", "c", "d", "e"])]) ∧
      (chunkPlan 10 (List.replicate 25 "t")).map (fun w => w.2.length) = [10, 10, 5] ∧
      embedBatch (fun xs => .ok (xs.map (fun _ => ([] : Vec)))) 10 (List.replicate 25 "t")
        = .ok (List.replicate 25 ([] : Vec))) :=
  ⟨by decide, chunking_plan_correct 3 (by decide) ["a", "b", "c", "d", "e"]
    (fun _ => ([] : Vec))⟩

/-- C4: In the default all-or-nothing configuration, a batch embedding call
fails exactly when some chunk sub-call fails — no vectors at all are returned
in that case — and the surfaced error carries the failing chunk's offset
range: the chunk at inputs[offset : offset+size] is the one the provider
rejected. -/
theorem embed_batch_all_or_nothing (p : Provider) (c : Nat) (inputs : List String) :
    ((∃ w ∈ chunkPlan c inputs, ∃ m, p w.2 = .error m) ↔
      ∃ e, embedBatch p c inputs = .error e) ∧
    ∀ e, embedBatch p c inputs = .error e →
      p ((inputs.drop e.offset).take c) = .error e.message ∧
      e.size = ((inputs.drop e.offset).take c).length ∧
      e.offset + e.size ≤ inputs.length ∧
      ∀ out, embedBatch p c inputs ≠ .ok out := by
  constructor
  · unfold embedBatch
    exact (runChunks_error_iff p (chunkPlan c inputs)).symm
  · intro e he
    obtain ⟨w, hw, h1, h2, h3⟩ := runChunks_error_spec p (chunkPlan c inputs) e he
    obtain ⟨hch, hbound⟩ := chunkPlan_mem_char c inputs w hw
    refine ⟨?_, ?_, ?_, ?_⟩
    · rw [h1, ← hch]
      exact h3
    · rw [h1, ← hch]
      exact h2
    · rw [h1, h2]
      exact hbound
    · intro out hout
      rw [he] at hout
      exact Except.noConfusion hout

/-- C2: For every upstream event sequence — including sequences in which
upstream never emits its own terminal marker — the client-facing stream
produced by the Streaming Proxy ends with exactly one `[DONE]` frame, no
`[DONE]` frame occurs anywhere else, and the proxy synthesizes the frame on
upstream stream end when upstream omits it. -/
theorem proxy_stream_exactly_one_done (u : UpstreamStream) :
    (∃ pre, proxyFrames u = pre ++ [Frame.done] ∧ Frame.done ∉ pre) ∧
    (proxyFrames u).count Frame.done = 1 := by
  have hpre : ∃ pre, proxyFrames u = pre ++ [Frame.done] ∧ Frame.done ∉ pre := by
    cases hend : u.ending with
    | completed =>
      exact ⟨u.chunks.map Frame.event, by simp [proxyFrames, closingFrames, hend],
        done_not_mem_events u.chunks⟩
    | omitted =>
      exact ⟨u.chunks.map Frame.event, by simp [proxyFrames, closingFrames, hend],
        done_not_mem_events u.chunks⟩
    | interrupted =>
      refine ⟨u.chunks.map Frame.event ++ [Frame.errorEvent "UpstreamInterrupted"], ?_, ?_⟩
      · simp [proxyFrames, closingFrames, hend]
      · intro h
        rcases List.mem_append.mp h with h | h
        · exact done_not_mem_events _ h
        · simp at h
  refine ⟨hpre, ?_⟩
  obtain ⟨pre, heq, hnot⟩ := hpre
  rw [heq, List.count_append, List.count_eq_zero.mpr hnot]
  simp

/-- C7: For every request processed with stream=true, the emitted frame
sequence is the upstream chunks as incremental events in the exact order
received, followed by the `[DONE]` frame, and the concatenation of the
incremental text equals the text of the non-streamed response to the same
request. -/
theorem stream_matches_sync (u : UpstreamStream) (h : u.ending = .completed) :
    proxyFrames u = u.chunks.map Frame.event ++ [Frame.done] ∧
    framesText (proxyFrames u) = syncText u.chunks := by
  constructor
  · simp [proxyFrames, closingFrames, h]
  · rw [proxyFrames, h]
    show framesText (u.chunks.map Frame.event ++ [Frame.done]) = syncText u.chunks
    rw [framesText_events]
    show concatTexts u.chunks ++ "" = syncText u.chunks
    rw [syncText]
    exact String.append_empty _

/-- Witness for C7 at the "Count to 5" streaming scenario. -/
theorem stream_matches_sync_witness :
    (UpstreamStream.mk ["1, ", "2, 3", ", 4, 5"] .completed).ending =
        UpstreamEnding.completed ∧
    (proxyFrames ⟨["1, ", "2, 3", ", 4, 5"], .completed⟩ =
        (["1, ", "2, 3", ", 4, 5"] : List String).map Frame.event ++ [Frame.done] ∧
      framesText (proxyFrames ⟨["1, ", "2, 3", ", 4, 5"], .completed⟩) =
        syncText ["1, ", "2, 3", ", 4, 5"]) :=
  ⟨rfl, stream_matches_sync ⟨["1, ", "2, 3", ", 4, 5"], .completed⟩ rfl⟩

/-- C8: For every streaming call in which the upstream connection drops
mid-stream without a completion signal, the client stream is not terminated
by a bare close: the proxy emits an in-band `UpstreamInterrupted` error event
followed by the `[DONE]` frame, after the events already forwarded. -/
theorem stream_error_in_band (u : UpstreamStream) (h : u.ending = .interrupted) :
    proxyFrames u =
      u.chunks.map Frame.event ++ [Frame.errorEvent "UpstreamInterrupted", Frame.done] ∧
    ∃ pre, proxyFrames u = pre ++ [Frame.errorEvent "UpstreamInterrupted", Frame.done] := by
  refine ⟨?_, u.chunks.map Frame.event, ?_⟩ <;> simp [proxyFrames, closingFrames, h]

/-- Witness for C8: a stream dropped after two chunks. -/
theorem stream_error_in_band_witness :
    (UpstreamStream.mk ["1, ", "2"] .interrupted).ending = UpstreamEnding.interrupted ∧
    (proxyFrames ⟨["1, ", "2"], .interrupted⟩ =
        (["1, ", "2"] : List String).map Frame.event ++
          [Frame.errorEvent "UpstreamInterrupted", Frame.done] ∧
      ∃ pre, proxyFrames ⟨["1, ", "2"], .interrupted⟩ =
        pre ++ [Frame.errorEvent "UpstreamInterrupted", Frame.done]) :=
  ⟨rfl, stream_error_in_band ⟨["1, ", "2"], .interrupted⟩ rfl⟩

/-- C5: For every request whose model name has no registered route, the
Dispatch Core returns a `NotFound` error and the effect trace is empty — no
upstream call is issued before the lookup failure is reported. -/
theorem unknown_model_notFound (registry : List (String × ModelRoute)) (model : String)
    (upstream : ModelRoute → Except GwError CanonicalResponse)
    (h : registry.lookup model = none) :
    resolve registry model = .error (.notFound model) ∧
    dispatch registry model upstream = (.error (.notFound model), []) := by
  constructor
  · rw [resolve, h]
  · rw [dispatch, resolve, h]

/-- Witness for C5: a one-route registry queried with an unregistered name. -/
theorem unknown_model_notFound_witness :
    ([("gpt-4o", ModelRoute.mk "gpt-4o" "openai" .chatCompletions "http://up")]
        |>.lookup "claude-3") = none ∧
    (resolve [("gpt-4o", ModelRoute.mk "gpt-4o" "openai" .chatCompletions "http://up")]
        "claude-3" = .error (.notFound "claude-3") ∧
      dispatch [("gpt-4o", ModelRoute.mk "gpt-4o" "openai" .chatCompletions "http://up")]
        "claude-3" (fun r => .ok ⟨"id-1", r.model_name, ["ok"]⟩) =
        (.error (.notFound "claude-3"), [])) :=
  ⟨rfl, unknown_model_notFound _ "claude-3" (fun r => .ok ⟨"id-1", r.model_name, ["ok"]⟩) rfl⟩

/-- C6: For every valid chat-completions request, decoding it to a
CanonicalRequest and encoding the corresponding CanonicalResponse round-trips
the required OpenAI fields: the request's model reaches the canonical request
and back onto the encoded payload, the encoded payload carries the response
id, and the response text sits exactly at choices[0].message.content. -/
theorem chat_decode_encode_roundtrip (w : Wire) (req : CanonicalRequest) (id : String)
    (output : List String) (hdec : decodeChat w = .ok req) :
    w.getField "model" = some (.str req.model) ∧
    (encodeChat (respondTo req id output)).getField "id" = some (.str id) ∧
    (encodeChat (respondTo req id output)).getField "model" = some (.str req.model) ∧
    chatContentPath (encodeChat (respondTo req id output)) =
      some (.str (concatTexts output)) := by
  have hmodel : w.getField "model" = some (.str req.model) := by
    unfold decodeChat at hdec
    split at hdec
    · rename_i m hm
      split at hdec
      · split at hdec
        · simp only [Except.ok.injEq] at hdec
          rw [← hdec]
          exact hm
        · exact absurd hdec (by simp)
      · exact absurd hdec (by simp)
    · exact absurd hdec (by simp)
  exact ⟨hmodel, rfl, rfl, rfl⟩

/-- Witness for C6: a concrete "Count to 10" chat request. -/
theorem chat_decode_encode_roundtrip_witness :
    decodeChat (.obj [("model", .str "gpt-4o"),
        ("messages", .arr [.obj [("role", .str "user"), ("content", .str "Count to 10")]])])
      = .ok ⟨"gpt-4o", [⟨"user", "Count to 10"⟩], false⟩ ∧
    ((Wire.obj [("model", .str "gpt-4o"),
        ("messages", .arr [.obj [("role", .str "user"),
          ("content", .str "Count to 10")]])]).getField "model"
      = some (.str (CanonicalRequest.mk "gpt-4o" [⟨"user", "Count to 10"⟩] false).model) ∧
    (encodeChat (respondTo ⟨"gpt-4o", [⟨"user", "Count to 10"⟩], false⟩ "chatcmpl-1"
        ["1, 2, 3"])).getField "id" = some (.str "chatcmpl-1") ∧
    (encodeChat (respondTo ⟨"gpt-4o", [⟨"user", "Count to 10"⟩], false⟩ "chatcmpl-1"
        ["1, 2, 3"])).getField "model"
      = some (.str (CanonicalRequest.mk "gpt-4o" [⟨"user", "Count to 10"⟩] false).model) ∧
    chatContentPath (encodeChat (respondTo ⟨"gpt-4o", [⟨"user", "Count to 10"⟩], false⟩
        "chatcmpl-1" ["1, 2, 3"])) = some (.str (concatTexts ["1, 2, 3"]))) :=
  ⟨rfl, chat_decode_encode_roundtrip _ ⟨"gpt-4o", [⟨"user", "Count to 10"⟩], false⟩
    "chatcmpl-1" ["1, 2, 3"] rfl⟩

/-- C9: For every successful embeddings request carrying dimensions d, under
the upstream contract that a sub-call given dimensions d returns vectors of
length d, every vector in the batch output has length exactly d — the
requested dimensions value is forwarded to every chunk sub-call rather than
ignored. -/
theorem dimensions_honored (P : Option Nat → Provider) (c : Nat) (d : Nat)
    (req : EmbedRequest) (out : List Vec)
    (hdim : req.dimensions = some d)
    (hP : ∀ xs vs, P (some d) xs = .ok vs → ∀ v ∈ vs, v.length = d)
    (hok : handleEmbeddings P c req = .ok out) :
    ∀ v ∈ out, v.length = d := by
  intro v hv
  unfold handleEmbeddings at hok
  rw [hdim] at hok
  obtain ⟨ch, vs, hcall, hvmem⟩ :=
    runChunks_ok_mem (P (some d)) (chunkPlan c req.input) out hok v hv
  exact hP ch vs hcall v hvmem

/-- Witness for C9: dimensions 3 requested over three inputs in chunks of
two. -/
theorem dimensions_honored_witness :
    (EmbedRequest.mk "text-embedding-3-small" ["a", "b", "c"] (some 3)).dimensions
      = some 3 ∧
    handleEmbeddings (fun o xs => .ok (xs.map (fun _ => List.replicate (o.getD 1) (0 : Int))))
        2 (EmbedRequest.mk "text-embedding-3-small" ["a", "b", "c"] (some 3))
      = .ok [List.replicate 3 (0 : Int), List.replicate 3 (0 : Int),
          List.replicate 3 (0 : Int)] ∧
    ∀ v ∈ [List.replicate 3 (0 : Int), List.replicate 3 (0 : Int),
        List.replicate 3 (0 : Int)], v.length = 3 := by
  refine ⟨rfl, by rfl, ?_⟩
  refine dimensions_honored (fun o xs => .ok (xs.map (fun _ => List.replicate (o.getD 1) (0 : Int))))
    2 3 (EmbedRequest.mk "text-embedding-3-small" ["a", "b", "c"] (some 3)) _ rfl ?_ (by rfl)
  intro xs vs h v hv
  simp only [Except.ok.injEq] at h
  rw [← h] at hv
  obtain ⟨a, -, ha⟩ := List.mem_map.mp hv
  rw [← ha]
  simp

/-- C10: For every successful embeddings request, under the upstream contract
of one vector per input, a single-string input — in either client embedding
mode — yields exactly one data entry, at index 0, and an input array of N
strings yields exactly N entries whose indices are 0..N-1 in order. -/
theorem embed_data_counts (P : Provider) (c : Nat) (hc : 0 < c)
    (hlen : ∀ xs vs, P xs = .ok vs → vs.length = xs.length) :
    (∀ (mode : ClientMode) (t : String) (data : List (Nat × Vec)),
      handleEmbedWire P c (modeInput mode t) = .ok data →
        data.length = 1 ∧ data.map Prod.fst = [0]) ∧
    (∀ (ts : List String) (data : List (Nat × Vec)),
      handleEmbedWire P c (.arr (ts.map Wire.str)) = .ok data →
        data.length = ts.length ∧ data.map Prod.fst = List.range ts.length) := by
  have key : ∀ (iw : Wire) (inputs : List String) (data : List (Nat × Vec)),
      decodeEmbedInput iw = .ok inputs →
      handleEmbedWire P c iw = .ok data →
      data.length = inputs.length ∧ data.map Prod.fst = List.range inputs.length := by
    intro iw inputs data hdec hok
    unfold handleEmbedWire at hok
    rw [hdec] at hok
    dsimp only at hok
    cases hb : embedBatch P c inputs with
    | error e => rw [hb] at hok; simp at hok
    | ok out =>
      rw [hb] at hok
      simp only [Except.ok.injEq] at hok
      rw [← hok]
      have hout := embedBatch_ok_length P hlen c hc inputs out hb
      constructor
      · simp [embedData, hout]
      · rw [embedData, ← hout, List.enum_eq_enumFrom, List.range_eq_range']
        exact List.enumFrom_map_fst 0 out
  constructor
  · intro mode t data hok
    have hdec : decodeEmbedInput (modeInput mode t) = .ok [t] := by cases mode <;> rfl
    have := key (modeInput mode t) [t] data hdec hok
    simpa using this
  · intro ts data hok
    exact key (.arr (ts.map Wire.str)) ts data (decodeStringList_strs ts) hok

/-- Witness for C10: chunks of ten, a provider returning one empty vector per
input. -/
theorem embed_data_counts_witness :
    0 < 10 ∧
    ((∀ (mode : ClientMode) (t : String) (data : List (Nat × Vec)),
      handleEmbedWire (fun xs => .ok (xs.map (fun _ => ([] : Vec)))) 10 (modeInput mode t)
        = .ok data → data.length = 1 ∧ data.map Prod.fst = [0]) ∧
    (∀ (ts : List String) (data : List (Nat × Vec)),
      handleEmbedWire (fun xs => .ok (xs.map (fun _ => ([] : Vec)))) 10
          (.arr (ts.map Wire.str)) = .ok data →
        data.length = ts.length ∧ data.map Prod.fst = List.range ts.length)) := by
  refine ⟨by decide, ?_⟩
  refine embed_data_counts (fun xs => .ok (xs.map (fun _ => ([] : Vec)))) 10 (by decide) ?_
  intro xs vs h
  simp only [Except.ok.injEq] at h
  rw [← h]
  simp

end AIGateway
